import Mathlib

/-!
Shallow embedding of the depper dependency-constraint engine (depper.go).

The Go program checks a package dependency graph against declarative rules.
We embed, directly from the source:

* the package graph model (`pkg`, and `gpkg` for nodes as the graph builder
  stores them, where a recorded `*pkg` pointer is represented by the name of
  the interned node it points to, or `none` for a nil pointer);
* the pattern matcher (`pkgpattern`, `compilePkgpattern`, `pkgpattern.matchPkg`);
* the rule evaluator (`rule.process`, `rule.processMissingPackages`);
* the graph builder (`_collectPackages` and its helpers), with the Go
  `packages.Load` resolution mechanism abstracted as a total environment
  `info : String → goPackage` giving each import path its GOROOT
  classification and import keys (resolution failure aborts the whole Go run
  and is outside the properties treated here);
* the per-rule slice of the `main` orchestration loop (`runRule`).

Go `map[string]bool` sets are modelled as `List String` with membership
lookup (`memStr`); Go map iteration order, which is unspecified, is modelled
by the list order.  Machine regexps (`regexp.Regexp`) are abstracted as their
`MatchString` predicate `String → Bool`, and `regexp.Compile` as an abstract
fallible compiler `String → Option (String → Bool)`.
-/

set_option autoImplicit false

/-- A dependency node as the rule evaluator reads it through a `*pkg`
pointer: only `name` and `goroot` of a dependency are ever read by
`pkgpattern.match` and `rule.process`. -/
structure depref where
  name : String
  goroot : Bool
  deriving DecidableEq, Repr

/-- The `pkg` struct of depper.go, restricted to what the rule evaluator
consumes: `dependsOn` holds the dependency nodes (Go iterates the values of
the `map[string]*pkg`; the map order is modelled by the list order, and map
keying by name makes the listed names unique in any graph the builder
produces). -/
structure pkg where
  name : String
  goroot : Bool
  dependsOn : List depref
  deriving DecidableEq, Repr

/-- `pkg.String()` of depper.go: standard-library packages display as
`<name>`. -/
def pkgString (p : pkg) : String :=
  if p.goroot then ("<" ++ p.name ++ ">") else p.name

/-- `strings.HasPrefix` of Go, at the character-list level: for valid UTF-8
strings, Go's byte-prefix test agrees with the character-prefix test.  (The
core `String.startsWith` is extensionally the same but is defined through
well-founded recursion, which the kernel cannot evaluate on closed terms.) -/
def strStarts (s pre : String) : Bool :=
  pre.data.isPrefixOf s.data

/-- `strings.HasSuffix` of Go, at the character-list level. -/
def strEnds (s post : String) : Bool :=
  post.data.isSuffixOf s.data

/-- The `pkgpattern` struct of depper.go.  The compiled regular expression is
abstracted as its `MatchString` predicate; the Go zero values (`false`,
`false`, `""`, nil) are the field defaults, with the nil regexp modelled as
the never-matching predicate (it is never consulted on the third-parties
path, exactly as nil is never dereferenced in the Go code). -/
structure pkgpattern where
  goroot : Bool := false
  thirdParties : Bool := false
  workingPackage : String := ""
  pattern : String → Bool := fun _ => false

/-- `compilePkgpattern` of depper.go.  `regexpCompile` abstracts
`regexp.Compile`, returning `none` exactly when the expression is not a valid
regular expression.  Go slices bytes in `expr[1 : len(expr)-1]`; since the
stripped delimiters are the one-byte characters `<` and `>`, dropping one
character at each end is the same operation. -/
def compilePkgpattern (regexpCompile : String → Option (String → Bool))
    (workingPackage expr : String) : Option pkgpattern :=
  if expr = "third_parties" then
    some { thirdParties := true, workingPackage := workingPackage }
  else
    let isGoroot := strStarts expr ("<") && strEnds expr (">")
    let pattern := if isGoroot then (expr.drop 1).dropRight 1 else expr
    match regexpCompile pattern with
    | none => none
    | some f => some { goroot := isGoroot, pattern := f }

/-- `(*pkgpattern).match` of depper.go (named `matchPkg` because `match` is a
Lean keyword): the `goroot` flags must agree first; then the third-parties
wildcard tests the working-package prefix, and otherwise the regular
expression is consulted. -/
def pkgpattern.matchPkg (p : pkgpattern) (pk : depref) : Bool :=
  if p.goroot != pk.goroot then false
  else if p.thirdParties then !(strStarts pk.name p.workingPackage)
  else p.pattern pk.name

/-- Membership test in a Go `map[string]bool` set modelled as a list. -/
def memStr (x : String) : List String → Bool
  | [] => false
  | y :: rest => if x = y then true else memStr x rest

/-- Indexing a Go `map[string]map[string]bool` by source-package name
(`rule.expectedPackageToPackage[pkg.name]` with its `ok` test). -/
def lookupSpec (pkgName : String) : List (String × List String) → Option (List String)
  | [] => none
  | (k, v) :: rest => if pkgName = k then some v else lookupSpec pkgName rest

/-- The `rule` struct of depper.go, restricted to the fields the evaluator
and orchestration read: the raw YAML fields and `parse` are thin input
wrappers around these denormalized fields.  `packagePattern` abstracts the
anchored selector regexp via its `MatchString` predicate. -/
structure rule where
  name : String := ""
  packagePattern : String → Bool := fun _ => false
  mayDepends : List pkgpattern := []
  expectedStarToPackage : List String := []
  expectedPackageToPackage : List (String × List String) := []
  actualPackagesProcessed : List String := []
  violations : List String := []

/-- The loop-local accumulators of `rule.process`: `bads`, `starActuals` and
`specificActuals`. -/
structure loopAcc where
  bads : List String
  starActuals : List String
  specificActuals : List String
  deriving DecidableEq, Repr

/-- The `nextPkg` edge loop of `rule.process`, lowered to a recursion over
the dependency list: allowed patterns are consulted first, then the generic
(`expectedStarToPackage`) exception set, then the specific
(`expectedPackageToPackage[pkg.name]`) exception set, and an edge absorbed by
no check is recorded as bad. -/
def rule.processLoop (r : rule) (pkgName : String) (acc : loopAcc) :
    List depref → loopAcc
  | [] => acc
  | d :: rest =>
    if r.mayDepends.any (fun s => s.matchPkg d) then
      r.processLoop pkgName acc rest
    else if memStr d.name r.expectedStarToPackage then
      r.processLoop pkgName
        { acc with starActuals := acc.starActuals ++ [d.name] } rest
    else if (match lookupSpec pkgName r.expectedPackageToPackage with
             | some s => memStr d.name s
             | none => false) then
      r.processLoop pkgName
        { acc with specificActuals := acc.specificActuals ++ [d.name] } rest
    else
      r.processLoop pkgName { acc with bads := acc.bads ++ [d.name] } rest

/-- `(*rule).process` of depper.go.  The `pkgs` graph argument is received
and, exactly as in the Go code, never used.  The three violation passes
(disallowed edges, unexercised generic exceptions, unexercised specific
exceptions) append to `violations` in that order; the conditional-append
loops over exception keys are lowered to `filter`/`map`. -/
def rule.process (r : rule) (pkgs : List (String × pkg)) (p : pkg) : rule :=
  let processed :=
    if memStr p.name r.actualPackagesProcessed then r.actualPackagesProcessed
    else r.actualPackagesProcessed ++ [p.name]
  let r := { r with actualPackagesProcessed := processed }
  let acc := r.processLoop p.name ⟨[], [], []⟩ p.dependsOn
  let dis := acc.bads.map (fun bad => "- disallowed " ++ pkgString p ++ " -> " ++ bad)
  let star := (r.expectedStarToPackage.filter
      (fun e => (e != p.name) && !(memStr e acc.starActuals))).map
    (fun e => "- expected   " ++ pkgString p ++ " -> " ++ e)
  let specific := (((lookupSpec p.name r.expectedPackageToPackage).getD []).filter
      (fun e => (e != p.name) && !(memStr e acc.specificActuals))).map
    (fun e => "- expected   " ++ pkgString p ++ " -> " ++ e)
  { r with violations := r.violations ++ dis ++ star ++ specific }

/-- `(*rule).processMissingPackages` of depper.go: one `missing` line per
specific-exception source key never marked processed. -/
def rule.processMissingPackages (r : rule) : rule :=
  let missing := ((r.expectedPackageToPackage.map Prod.fst).filter
      (fun e => !(memStr e r.actualPackagesProcessed))).map
    (fun e => "- missing    " ++ e)
  { r with violations := r.violations ++ missing }

/-- The per-rule slice of `main`'s orchestration: run every package of the
graph (in the given iteration order) through the rule when its selector
matches, then run the completeness pass.  Rules share no state in the Go
code, so `main`'s nested loop restricted to one rule is exactly this fold. -/
def runRule (graph : List (String × pkg)) (r : rule) (order : List pkg) : rule :=
  (order.foldl
    (fun acc p => if acc.packagePattern p.name then acc.process graph p else acc)
    r).processMissingPackages

/-! ## The graph builder -/

/-- What the builder consumes of a loaded `packages.Package`: its GOROOT
classification (`isGoroot` in depper.go) and the keys of its `Imports` map
(in the order the Go runtime happens to yield them). -/
structure goPackage where
  goroot : Bool
  imports : List String
  deriving DecidableEq, Repr

/-- A graph node as the builder stores it.  `dependsOn` records, per import
key, the `*pkg` pointer assigned by `pkg.dependsOn[imp] = pkgs[imp]`: every
node interned in the graph map is keyed by its own name, so a non-nil
pointer is represented by the name of the node it points at, and a nil
pointer (the map read missing) by `none`. -/
structure gpkg where
  name : String
  goroot : Bool
  dependsOn : List (String × Option String)
  deriving DecidableEq, Repr

/-- The `pkgs map[string]*pkg` accumulator, as an association list where a
more recent binding shadows an older one (Go map assignment overwrites). -/
abbrev PkgMap := List (String × gpkg)

/-- Go map read `pkgs[k]` (with the `ok` form when an `Option` is kept). -/
def lookupPkg : PkgMap → String → Option gpkg
  | [], _ => none
  | (k, v) :: rest, key => if key = k then some v else lookupPkg rest key

/-- Mutation of the interned node through its pointer:
`pkg.dependsOn[imp] = ...` appends an edge to the (unique visible) entry of
the map holding the package being processed. -/
def addEdge : PkgMap → String → String × Option String → PkgMap
  | [], _, _ => []
  | (k, v) :: rest, key, e =>
    if key = k then (k, { v with dependsOn := v.dependsOn ++ [e] }) :: rest
    else (k, v) :: addEdge rest key e

/-- The found-set loop of `getImports` in depper.go: skip the package's own
ID (no self edge from a test binary), skip duplicates, keep first
occurrences in order. -/
def getImportsAux (id : String) (found : List String) : List String → List String
  | [] => []
  | k :: rest =>
    if k = id then getImportsAux id found rest
    else if memStr k found then getImportsAux id found rest
    else k :: getImportsAux id (k :: found) rest

/-- `getImports` of depper.go over the `Imports` keys of a loaded package. -/
def getImports (id : String) (keys : List String) : List String :=
  getImportsAux id [] keys

/-- The import loop of `_collectPackages`, lowered to a recursion over the
list of imports with the recursive builder call passed in as `step`: any
not-yet-interned import is recursed into first; the edge is recorded next
from whatever `pkgs[imp]` then holds (nil when the recursion was cut off by
the depth cap before interning the import). -/
def collectEdgesWith (step : PkgMap → String → PkgMap) (pkgs : PkgMap)
    (parent : String) : List String → PkgMap
  | [] => pkgs
  | imp :: rest =>
    let pkgs₁ := if (lookupPkg pkgs imp).isNone then step pkgs imp else pkgs
    let pkgs₂ := addEdge pkgs₁ parent (imp, (lookupPkg pkgs₁ imp).map gpkg.name)
    collectEdgesWith step pkgs₂ parent rest

/-- The body of `(*defs)._collectPackages`, recursing on the remaining depth
budget: a call entered with Go level `L` runs its body iff `L + 1 ≤ 256` and
hands level `L + 1` to its children, which is exactly `fuel = 256 - L`
running iff `fuel ≥ 1` and handing `fuel - 1` down.  `"."` resolves to the
root package's real ID (`goPkg.ID`); a node is interned (with empty
`dependsOn`) before any of its imports are visited; standard-library nodes
and nodes outside the working package stay leaves. -/
def _collectPackagesF (wp rootID : String) (info : String → goPackage) :
    Nat → PkgMap → String → PkgMap
  | 0, pkgs, _ => pkgs
  | fuel + 1, pkgs, pkgName =>
    let resolved := if pkgName = "." then rootID else pkgName
    let gi := info resolved
    let node : gpkg := { name := resolved, goroot := gi.goroot, dependsOn := [] }
    let pkgs₁ : PkgMap := (resolved, node) :: pkgs
    if gi.goroot then pkgs₁
    else if !(strStarts resolved wp) then pkgs₁
    else collectEdgesWith (_collectPackagesF wp rootID info fuel) pkgs₁ resolved
      (getImports resolved gi.imports)

/-- `(*defs)._collectPackages` of depper.go at a given entry level (the Go
`level` parameter), with the `level++; level > 256` cap encoded as the fuel
`256 - level`. -/
def _collectPackages (wp rootID : String) (info : String → goPackage)
    (pkgs : PkgMap) (pkgName : String) (level : Nat) : PkgMap :=
  _collectPackagesF wp rootID info (256 - level) pkgs pkgName

/-- `(*defs).collectPackages`: a full build from the empty map, starting at
the root directory's own unit `"."` at level 0. -/
def collectPackages (wp rootID : String) (info : String → goPackage) : PkgMap :=
  _collectPackages wp rootID info [] "." 0

/-! ## Branch conditions of the edge loop

The following predicates are read off the `if` chain of `rule.processLoop`;
they name the condition under which one dependency edge takes each branch. -/

/-- Some `may_depend` pattern matches the dependency (branch 2a). -/
def depAllowed (r : rule) (d : depref) : Bool :=
  r.mayDepends.any (fun s => s.matchPkg d)

/-- The edge is absorbed as a generic (`star`) exception (branch 2b). -/
def depGeneric (r : rule) (d : depref) : Bool :=
  !(depAllowed r d) && memStr d.name r.expectedStarToPackage

/-- The edge is absorbed as a specific exception of this source package
(branch 2c). -/
def depSpecific (r : rule) (pkgName : String) (d : depref) : Bool :=
  !(depAllowed r d) && !(memStr d.name r.expectedStarToPackage) &&
    (match lookupSpec pkgName r.expectedPackageToPackage with
     | some s => memStr d.name s
     | none => false)

/-- The edge is disallowed (branch 2d). -/
def depBad (r : rule) (pkgName : String) (d : depref) : Bool :=
  !(depAllowed r d) && !(memStr d.name r.expectedStarToPackage) &&
    !((match lookupSpec pkgName r.expectedPackageToPackage with
       | some s => memStr d.name s
       | none => false))

/-- The block of violations one `process` call appends for one package,
characterized through the branch conditions; `process_violations_eq` below
proves this equal to what the code appends. -/
def violationsFor (r : rule) (p : pkg) : List String :=
  (p.dependsOn.filter (depBad r p.name)).map
    (fun d => "- disallowed " ++ pkgString p ++ " -> " ++ d.name)
  ++ (r.expectedStarToPackage.filter
      (fun e => (e != p.name) &&
        !(memStr e ((p.dependsOn.filter (depGeneric r)).map depref.name)))).map
    (fun e => "- expected   " ++ pkgString p ++ " -> " ++ e)
  ++ (((lookupSpec p.name r.expectedPackageToPackage).getD []).filter
      (fun e => (e != p.name) &&
        !(memStr e ((p.dependsOn.filter (depSpecific r p.name)).map depref.name)))).map
    (fun e => "- expected   " ++ pkgString p ++ " -> " ++ e)

/-- The builder invariant behind C6: every stored node is named after its
key, carries its environment's GOROOT flag, and is a leaf (empty
`dependsOn`) whenever it is standard-library or outside the working
package. -/
def leafInv (wp : String) (info : String → goPackage) (m : PkgMap) : Prop :=
  ∀ (k : String) (node : gpkg), lookupPkg m k = some node →
    node.name = k ∧ node.goroot = (info k).goroot ∧
      ((node.goroot = true ∨ strStarts node.name wp = false) → node.dependsOn = [])

/-! ## Basic lemmas -/

theorem memStr_iff (x : String) (l : List String) : memStr x l = true ↔ x ∈ l := by
  induction l with
  | nil => simp [memStr]
  | cons y rest ih =>
    by_cases h : x = y <;> simp [memStr, h, ih]

theorem String_append_left_cancel {s a b : String} (h : s ++ a = s ++ b) : a = b := by
  have hd := congrArg String.data h
  simp only [String.data_append] at hd
  exact congrArg String.mk (List.append_cancel_left hd)

theorem disallowed_ne_expected (P x y : String) :
    ((("- disallowed " ++ P) ++ " -> ") ++ x) ≠ ((("- expected   " ++ P) ++ " -> ") ++ y) := by
  intro h
  have hd := congrArg String.data h
  simp only [String.data_append] at hd
  rw [List.append_assoc, List.append_assoc, List.append_assoc, List.append_assoc] at hd
  have hfst := (List.append_inj hd (by decide)).1
  exact absurd hfst (by decide)

/-- The edge loop appends, to each accumulator, the names of the
dependencies taking the corresponding branch, in dependency order. -/
theorem processLoop_eq (r : rule) (pn : String) (deps : List depref) :
    ∀ acc : loopAcc, r.processLoop pn acc deps =
      ⟨acc.bads ++ (deps.filter (depBad r pn)).map depref.name,
       acc.starActuals ++ (deps.filter (depGeneric r)).map depref.name,
       acc.specificActuals ++ (deps.filter (depSpecific r pn)).map depref.name⟩ := by
  induction deps with
  | nil => intro acc; simp [rule.processLoop]
  | cons d rest ih =>
    intro acc
    obtain ⟨b, s, sp⟩ := acc
    by_cases hA : r.mayDepends.any (fun q => q.matchPkg d) = true
    · have hB : depBad r pn d = false := by simp [depBad, depAllowed, hA]
      have hG : depGeneric r d = false := by simp [depGeneric, depAllowed, hA]
      have hS : depSpecific r pn d = false := by simp [depSpecific, depAllowed, hA]
      simp [rule.processLoop, hA, ih, hB, hG, hS]
    · rw [Bool.not_eq_true] at hA
      by_cases hStar : memStr d.name r.expectedStarToPackage = true
      · have hB : depBad r pn d = false := by simp [depBad, hStar]
        have hG : depGeneric r d = true := by simp [depGeneric, depAllowed, hA, hStar]
        have hS : depSpecific r pn d = false := by simp [depSpecific, hStar]
        simp [rule.processLoop, hA, hStar, ih, hB, hG, hS]
      · rw [Bool.not_eq_true] at hStar
        by_cases hSpec : (match lookupSpec pn r.expectedPackageToPackage with
            | some s => memStr d.name s
            | none => false) = true
        · have hB : depBad r pn d = false := by simp [depBad, hSpec]
          have hG : depGeneric r d = false := by simp [depGeneric, hStar]
          have hS : depSpecific r pn d = true := by
            simp [depSpecific, depAllowed, hA, hStar, hSpec]
          simp [rule.processLoop, hA, hStar, hSpec, ih, hB, hG, hS]
        · rw [Bool.not_eq_true] at hSpec
          have hB : depBad r pn d = true := by
            simp [depBad, depAllowed, hA, hStar, hSpec]
          have hG : depGeneric r d = false := by simp [depGeneric, hStar]
          have hS : depSpecific r pn d = false := by simp [depSpecific, hSpec]
          simp [rule.processLoop, hA, hStar, hSpec, ih, hB, hG, hS]

/-- What one `process` call appends to `violations`. -/
theorem process_violations_eq (r : rule) (pkgs : List (String × pkg)) (p : pkg) :
    (r.process pkgs p).violations = r.violations ++ violationsFor r p := by
  simp only [rule.process, violationsFor, processLoop_eq]
  simp [List.append_assoc]
  rfl

theorem memStr_eq_false_iff (x : String) (l : List String) :
    memStr x l = false ↔ x ∉ l := by
  cases h : memStr x l
  · simp only [eq_self_iff_true, true_iff]
    intro hmem
    rw [← memStr_iff x l] at hmem
    rw [h] at hmem
    exact Bool.false_ne_true hmem
  · simp only [Bool.true_eq_false, false_iff, not_not]
    exact (memStr_iff x l).1 h

theorem process_mayDepends (r : rule) (pkgs : List (String × pkg)) (p : pkg) :
    (r.process pkgs p).mayDepends = r.mayDepends := rfl

theorem process_packagePattern (r : rule) (pkgs : List (String × pkg)) (p : pkg) :
    (r.process pkgs p).packagePattern = r.packagePattern := rfl

theorem process_expectedStar (r : rule) (pkgs : List (String × pkg)) (p : pkg) :
    (r.process pkgs p).expectedStarToPackage = r.expectedStarToPackage := rfl

theorem process_expectedPkg (r : rule) (pkgs : List (String × pkg)) (p : pkg) :
    (r.process pkgs p).expectedPackageToPackage = r.expectedPackageToPackage := rfl

theorem process_actualPackagesProcessed (r : rule) (pkgs : List (String × pkg)) (p : pkg) :
    (r.process pkgs p).actualPackagesProcessed =
      if memStr p.name r.actualPackagesProcessed then r.actualPackagesProcessed
      else r.actualPackagesProcessed ++ [p.name] := rfl

theorem violationsFor_process_inv (r : rule) (pkgs : List (String × pkg)) (p q : pkg) :
    violationsFor (r.process pkgs p) q = violationsFor r q := rfl

theorem processMissing_violations_eq (r : rule) :
    (r.processMissingPackages).violations = r.violations ++
      ((r.expectedPackageToPackage.map Prod.fst).filter
          (fun e => !(memStr e r.actualPackagesProcessed))).map
        (fun e => "- missing    " ++ e) := rfl

theorem count_map_append (pre x : String) (l : List String) :
    ((l.map (fun e => pre ++ e)).count (pre ++ x)) = l.count x := by
  induction l with
  | nil => rfl
  | cons y rest ih =>
    simp only [List.map_cons, List.count_cons, ih]
    by_cases h : x = y
    · simp [h]
    · have hne : ¬(pre ++ x = pre ++ y) := fun hc => h (String_append_left_cancel hc)
      have hne' : ¬(pre ++ y = pre ++ x) := fun hc => hne hc.symm
      have h' : ¬(y = x) := fun hc => h hc.symm
      simp [h, hne, hne', h']

theorem count_filter_str (pb : String → Bool) (a : String) (l : List String) :
    (l.filter pb).count a = if pb a then l.count a else 0 := by
  induction l with
  | nil => simp
  | cons y rest ih =>
    by_cases hy : pb y = true
    · rw [List.filter_cons_of_pos hy]
      by_cases hay : a = y
      · subst hay
        simp [List.count_cons, ih, hy]
      · simp [List.count_cons, ih, hay]
    · rw [List.filter_cons_of_neg (by simp [hy])]
      rw [ih]
      by_cases hay : a = y
      · subst hay; simp [List.count_cons, hy]
      · simp [List.count_cons, hay]

/-- C4: after all edges are scanned, `process` appends one
`expected <package> -> <name>` line for each generic exception name that was
not exercised as a generic exception during edge scanning, except the
package's own name; the full shape of the appended block (disallowed edges,
then unmet generic exceptions, then unmet specific exceptions) is the stated
decomposition, so a generic exception on a name the package never depends on
always yields an expected violation. -/
theorem c4_expected_generic_decomposition (r : rule) (pkgs : List (String × pkg)) (p : pkg) :
    (r.process pkgs p).violations = r.violations
      ++ (p.dependsOn.filter (depBad r p.name)).map
        (fun d => "- disallowed " ++ pkgString p ++ " -> " ++ d.name)
      ++ (r.expectedStarToPackage.filter
          (fun e => (e != p.name) &&
            !(memStr e ((p.dependsOn.filter (depGeneric r)).map depref.name)))).map
        (fun e => "- expected   " ++ pkgString p ++ " -> " ++ e)
      ++ (((lookupSpec p.name r.expectedPackageToPackage).getD []).filter
          (fun e => (e != p.name) &&
            !(memStr e ((p.dependsOn.filter (depSpecific r p.name)).map depref.name)))).map
        (fun e => "- expected   " ++ pkgString p ++ " -> " ++ e) := by
  rw [process_violations_eq]
  simp [violationsFor, List.append_assoc]

/-- C8: `violations` is append-only — each `process` and
`processMissingPackages` call keeps the previous list as a prefix — and
processing the same package twice without resetting accumulators appends the
same block of violations a second time. -/
theorem c8_violations_append_only (r : rule) (pkgs : List (String × pkg)) (p : pkg) :
    (r.process pkgs p).violations
        = r.violations ++ ((r.process pkgs p).violations.drop r.violations.length)
    ∧ (r.processMissingPackages).violations
        = r.violations ++ ((r.processMissingPackages).violations.drop r.violations.length)
    ∧ ((r.process pkgs p).process pkgs p).violations
        = r.violations ++ ((r.process pkgs p).violations.drop r.violations.length)
          ++ ((r.process pkgs p).violations.drop r.violations.length) := by
  have hd : (r.process pkgs p).violations.drop r.violations.length = violationsFor r p := by
    rw [process_violations_eq]
    exact List.drop_left _ _
  refine ⟨?_, ?_, ?_⟩
  · rw [hd, process_violations_eq]
  · rw [processMissing_violations_eq, List.drop_left]
  · rw [hd, process_violations_eq ((r.process pkgs p)) pkgs p,
      violationsFor_process_inv, process_violations_eq, List.append_assoc]

/-- C5: `processMissingPackages` appends exactly one `missing <name>` line
for each specific-exception source key never marked processed, and nothing
for any other name (in particular generic exceptions never produce one). -/
theorem c5_missing_count (r : rule) (n : String)
    (hnd : (r.expectedPackageToPackage.map Prod.fst).Nodup) :
    ((r.processMissingPackages).violations.drop r.violations.length).count
        ("- missing    " ++ n)
      = if n ∈ r.expectedPackageToPackage.map Prod.fst
           ∧ memStr n r.actualPackagesProcessed = false
        then 1 else 0 := by
  rw [processMissing_violations_eq, List.drop_left, count_map_append, count_filter_str]
  by_cases hmem : n ∈ r.expectedPackageToPackage.map Prod.fst
  · by_cases hproc : memStr n r.actualPackagesProcessed = true
    · simp [hproc, hmem]
    · rw [Bool.not_eq_true] at hproc
      simp [hproc, hmem, List.count_eq_one_of_mem hnd hmem]
  · have h0 : (r.expectedPackageToPackage.map Prod.fst).count n = 0 :=
      List.count_eq_zero_of_not_mem hmem
    by_cases hproc : memStr n r.actualPackagesProcessed = true <;>
      simp [hproc, hmem, h0]

/-- C5 witness: a rule with specific exception key `a`, never processed,
yields exactly one `missing a` line. -/
theorem c5_missing_count_witness :
    ((rule.processMissingPackages
        { expectedPackageToPackage := [("a", ["b"])] }).violations.drop
          (({ expectedPackageToPackage := [("a", ["b"])] } : rule)).violations.length).count
        ("- missing    " ++ "a")
      = if ("a") ∈ ({ expectedPackageToPackage := [("a", ["b"])] } : rule).expectedPackageToPackage.map Prod.fst
           ∧ memStr ("a") ({ expectedPackageToPackage := [("a", ["b"])] } : rule).actualPackagesProcessed = false
        then 1 else 0 :=
  c5_missing_count { expectedPackageToPackage := [("a", ["b"])] } "a" (by decide)

/-- C10: a `process` call never appends an `expected` violation whose target
is the package's own name — the self-name exclusion applies to the generic
and the specific exception pass alike. -/
theorem c10_no_self_expected (r : rule) (pkgs : List (String × pkg)) (p : pkg) :
    (((r.process pkgs p).violations.drop r.violations.length).all
      (fun v => v != ("- expected   " ++ pkgString p ++ " -> " ++ p.name))) = true := by
  rw [process_violations_eq, List.drop_left]
  simp only [violationsFor, List.all_append, Bool.and_eq_true, List.all_eq_true]
  refine ⟨⟨?_, ?_⟩, ?_⟩
  · intro v hv
    obtain ⟨d, _, rfl⟩ := List.mem_map.1 hv
    simp only [bne_iff_ne, ne_eq]
    exact disallowed_ne_expected (pkgString p) d.name p.name
  · intro v hv
    obtain ⟨e, he, rfl⟩ := List.mem_map.1 hv
    have hcond := (List.mem_filter.1 he).2
    simp only [Bool.and_eq_true, bne_iff_ne, ne_eq] at hcond
    simp only [bne_iff_ne, ne_eq]
    intro hc
    exact hcond.1 (String_append_left_cancel hc)
  · intro v hv
    obtain ⟨e, he, rfl⟩ := List.mem_map.1 hv
    have hcond := (List.mem_filter.1 he).2
    simp only [Bool.and_eq_true, bne_iff_ne, ne_eq] at hcond
    simp only [bne_iff_ne, ne_eq]
    intro hc
    exact hcond.1 (String_append_left_cancel hc)

/-- C3: an edge produces a `disallowed` violation iff no allowed pattern
matches it, its name is not a generic exception, and its name is not a
specific exception of the source package; and the loop accumulators record a
generic (resp. specific) absorption exactly when the edge reached that
branch, so an edge absorbed by an earlier check never triggers a later one. -/
theorem c3_disallowed_iff (r : rule) (pkgs : List (String × pkg)) (p : pkg) (d : depref)
    (hnd : (p.dependsOn.map depref.name).Nodup) (hd : d ∈ p.dependsOn) :
    ((("- disallowed " ++ pkgString p ++ " -> " ++ d.name) ∈
        ((r.process pkgs p).violations.drop r.violations.length)) ↔
      (r.mayDepends.any (fun s => s.matchPkg d) = false
        ∧ memStr d.name r.expectedStarToPackage = false
        ∧ (match lookupSpec p.name r.expectedPackageToPackage with
           | some s => memStr d.name s
           | none => false) = false))
    ∧ memStr d.name (r.processLoop p.name ⟨[], [], []⟩ p.dependsOn).starActuals
        = depGeneric r d
    ∧ memStr d.name (r.processLoop p.name ⟨[], [], []⟩ p.dependsOn).specificActuals
        = depSpecific r p.name d := by
  have hinj : ∀ x ∈ p.dependsOn, ∀ y ∈ p.dependsOn, x.name = y.name → x = y :=
    fun x hx y hy hxy => List.inj_on_of_nodup_map hnd hx hy hxy
  have hBadIff : depBad r p.name d = true ↔
      (r.mayDepends.any (fun s => s.matchPkg d) = false
        ∧ memStr d.name r.expectedStarToPackage = false
        ∧ (match lookupSpec p.name r.expectedPackageToPackage with
           | some s => memStr d.name s
           | none => false) = false) := by
    simp [depBad, depAllowed, Bool.and_eq_true, Bool.not_eq_true', and_assoc]
  refine ⟨?_, ?_, ?_⟩
  · rw [process_violations_eq, List.drop_left]
    constructor
    · intro hmem
      simp only [violationsFor, List.mem_append] at hmem
      rcases hmem with (hA | hB) | hC
      · obtain ⟨d', hd', heq⟩ := List.mem_map.1 hA
        have hname : d'.name = d.name := String_append_left_cancel heq
        have hdd : d' = d := hinj d' (List.mem_filter.1 hd').1 d hd hname
        rw [← hBadIff, ← hdd]
        exact (List.mem_filter.1 hd').2
      · obtain ⟨e, _, heq⟩ := List.mem_map.1 hB
        exact absurd heq.symm (disallowed_ne_expected (pkgString p) d.name e)
      · obtain ⟨e, _, heq⟩ := List.mem_map.1 hC
        exact absurd heq.symm (disallowed_ne_expected (pkgString p) d.name e)
    · intro hcond
      have hbad : depBad r p.name d = true := hBadIff.2 hcond
      simp only [violationsFor, List.mem_append]
      exact Or.inl (Or.inl (List.mem_map.2 ⟨d, List.mem_filter.2 ⟨hd, hbad⟩, rfl⟩))
  · rw [processLoop_eq]
    cases hG : depGeneric r d
    · rw [memStr_eq_false_iff]
      simp only [List.nil_append, List.mem_map]
      rintro ⟨d', hd', hname⟩
      have := hinj d' (List.mem_filter.1 hd').1 d hd hname
      rw [this] at hd'
      rw [(List.mem_filter.1 hd').2] at hG
      exact Bool.noConfusion hG
    · rw [memStr_iff]
      simp only [List.nil_append, List.mem_map]
      exact ⟨d, List.mem_filter.2 ⟨hd, hG⟩, rfl⟩
  · rw [processLoop_eq]
    cases hS : depSpecific r p.name d
    · rw [memStr_eq_false_iff]
      simp only [List.nil_append, List.mem_map]
      rintro ⟨d', hd', hname⟩
      have := hinj d' (List.mem_filter.1 hd').1 d hd hname
      rw [this] at hd'
      rw [(List.mem_filter.1 hd').2] at hS
      exact Bool.noConfusion hS
    · rw [memStr_iff]
      simp only [List.nil_append, List.mem_map]
      exact ⟨d, List.mem_filter.2 ⟨hd, hS⟩, rfl⟩

/-- C3 witness: the default rule flags the single edge `foo -> bar` as
disallowed. -/
theorem c3_disallowed_iff_witness :
    ("- disallowed " ++ pkgString ⟨"foo", false, [⟨"bar", false⟩]⟩ ++ " -> " ++ "bar") ∈
      ((rule.process {} [] ⟨"foo", false, [⟨"bar", false⟩]⟩).violations.drop
        (({} : rule)).violations.length) :=
  ((c3_disallowed_iff {} [] ⟨"foo", false, [⟨"bar", false⟩]⟩ ⟨"bar", false⟩
    (by decide) (by decide)).1).2 ⟨rfl, rfl, rfl⟩

/-- C1 counterexample: the compiled `third_parties` pattern rejects the
standard-library package `fmt` even though its name does not start with the
working prefix, because `match` compares the `goroot` flags first. -/
theorem c1_third_parties_counterexample :
    (compilePkgpattern (fun _ => none) "myproj" "third_parties").map
        (fun pat => pat.matchPkg ⟨"fmt", true⟩) = some false
    ∧ strStarts ("fmt") "myproj" = false :=
  ⟨rfl, rfl⟩

/-- C1 amended: a compiled third-party-wildcard pattern matches a package
iff the package is **not** standard-library and its name does not start with
the working prefix (the `goroot` flags are compared before the wildcard
test, as the source comment "non std lib, non working package" states). -/
theorem c1_third_parties_matchPkg (rc : String → Option (String → Bool)) (wp : String)
    (pat : pkgpattern) (h : compilePkgpattern rc wp ("third_parties") = some pat)
    (pk : depref) :
    pat.matchPkg pk = (!pk.goroot && !(strStarts pk.name wp)) := by
  have h0 : compilePkgpattern rc wp ("third_parties")
      = some { thirdParties := true, workingPackage := wp } := rfl
  have hpat : pat = { thirdParties := true, workingPackage := wp } :=
    (Option.some.inj (h0.symm.trans h)).symm
  subst hpat
  obtain ⟨n, g⟩ := pk
  cases g <;> simp [pkgpattern.matchPkg]

/-- C1 amended witness: at the standard-library package `fmt` the wildcard
returns `false`. -/
theorem c1_third_parties_matchPkg_witness :
    pkgpattern.matchPkg { thirdParties := true, workingPackage := "myproj" } ⟨"fmt", true⟩
      = (!(true : Bool) && !(strStarts ("fmt") "myproj")) :=
  c1_third_parties_matchPkg (fun _ => none) "myproj" _ rfl ⟨"fmt", true⟩

/-- C7: pattern compilation: the exact token `third_parties` yields the
wildcard mode and never fails; an expression wrapped in `<`/`>` yields
standard-library-regex mode on the stripped text; anything else yields
non-standard-library-regex mode on the full text; compilation fails iff the
(possibly stripped) expression is not a valid regular expression. -/
theorem c7_compile_modes (rc : String → Option (String → Bool)) (wp expr : String) :
    compilePkgpattern rc wp expr =
      (if expr = "third_parties" then some { thirdParties := true, workingPackage := wp }
       else if strStarts expr ("<") && strEnds expr (">") then
         (rc ((expr.drop 1).dropRight 1)).map (fun f => { goroot := true, pattern := f })
       else (rc expr).map (fun f => { pattern := f }))
    ∧ ((compilePkgpattern rc wp expr = none) ↔
        (expr ≠ "third_parties"
          ∧ rc (if strStarts expr ("<") && strEnds expr (">")
                then (expr.drop 1).dropRight 1 else expr) = none)) := by
  have hEq : compilePkgpattern rc wp expr =
      (if expr = "third_parties" then some { thirdParties := true, workingPackage := wp }
       else if strStarts expr ("<") && strEnds expr (">") then
         (rc ((expr.drop 1).dropRight 1)).map (fun f => { goroot := true, pattern := f })
       else (rc expr).map (fun f => { pattern := f })) := by
    by_cases h : expr = "third_parties"
    · simp [compilePkgpattern, h]
    · by_cases hg : (strStarts expr ("<") && strEnds expr (">")) = true
      · cases hrc : rc ((expr.drop 1).dropRight 1) <;>
          simp [compilePkgpattern, h, hg, hrc]
      · rw [Bool.not_eq_true] at hg
        cases hrc : rc expr <;> simp [compilePkgpattern, h, hg, hrc]
  refine ⟨hEq, ?_⟩
  rw [hEq]
  by_cases h : expr = "third_parties"
  · simp [h]
  · by_cases hg : (strStarts expr ("<") && strEnds expr (">")) = true
    · cases hrc : rc ((expr.drop 1).dropRight 1) <;> simp [h, hg, hrc]
    · rw [Bool.not_eq_true] at hg
      cases hrc : rc expr <;> simp [h, hg, hrc]

theorem bool_eq_of_true_iff {a b : Bool} (h : a = true ↔ b = true) : a = b := by
  cases a <;> cases b <;> simp_all

theorem violationsFor_congr (r₀ r : rule) (p : pkg)
    (h1 : r.mayDepends = r₀.mayDepends)
    (h2 : r.expectedStarToPackage = r₀.expectedStarToPackage)
    (h3 : r.expectedPackageToPackage = r₀.expectedPackageToPackage) :
    violationsFor r p = violationsFor r₀ p := by
  have hb : depBad r = depBad r₀ := by
    funext pn d; simp [depBad, depAllowed, h1, h2, h3]
  have hg : depGeneric r = depGeneric r₀ := by
    funext d; simp [depGeneric, depAllowed, h1, h2]
  have hs : depSpecific r = depSpecific r₀ := by
    funext pn d; simp [depSpecific, depAllowed, h1, h2, h3]
  simp [violationsFor, h2, h3, hb, hg, hs]

theorem processMissing_actualPackagesProcessed (r : rule) :
    (r.processMissingPackages).actualPackagesProcessed = r.actualPackagesProcessed := rfl

theorem processMissing_expectedPkg (r : rule) :
    (r.processMissingPackages).expectedPackageToPackage = r.expectedPackageToPackage := rfl

/-- The violations accumulated by the per-rule orchestration fold: one
`violationsFor` block per package the selector matches, in iteration
order. -/
theorem runRule_foldl_violations (graph : List (String × pkg)) (order : List pkg) :
    ∀ r₀ r : rule, r.packagePattern = r₀.packagePattern →
      r.mayDepends = r₀.mayDepends →
      r.expectedStarToPackage = r₀.expectedStarToPackage →
      r.expectedPackageToPackage = r₀.expectedPackageToPackage →
      (order.foldl
          (fun acc p => if acc.packagePattern p.name then acc.process graph p else acc)
          r).violations
        = r.violations ++ (order.flatMap
            (fun p => if r₀.packagePattern p.name then violationsFor r₀ p else [])) := by
  induction order with
  | nil => intro r₀ r _ _ _ _; simp
  | cons p rest ih =>
    intro r₀ r hp h1 h2 h3
    by_cases hmatch : r.packagePattern p.name = true
    · rw [List.foldl_cons, if_pos hmatch]
      rw [ih r₀ (r.process graph p)
        ((process_packagePattern r graph p).trans hp)
        ((process_mayDepends r graph p).trans h1)
        ((process_expectedStar r graph p).trans h2)
        ((process_expectedPkg r graph p).trans h3)]
      rw [process_violations_eq, violationsFor_congr r₀ r p h1 h2 h3]
      rw [List.flatMap_cons, if_pos (hp ▸ hmatch), List.append_assoc]
    · rw [List.foldl_cons, if_neg hmatch]
      rw [ih r₀ r hp h1 h2 h3]
      rw [Bool.not_eq_true] at hmatch
      rw [List.flatMap_cons, if_neg (by rw [← hp, hmatch]; exact Bool.noConfusion), List.nil_append]

/-- The fold leaves the denormalized rule fields unchanged. -/
theorem runRule_foldl_fields (graph : List (String × pkg)) (order : List pkg) :
    ∀ r : rule,
      ((order.foldl
          (fun acc p => if acc.packagePattern p.name then acc.process graph p else acc)
          r).expectedPackageToPackage = r.expectedPackageToPackage)
      ∧ ((order.foldl
          (fun acc p => if acc.packagePattern p.name then acc.process graph p else acc)
          r).packagePattern = r.packagePattern)
      ∧ ((order.foldl
          (fun acc p => if acc.packagePattern p.name then acc.process graph p else acc)
          r).mayDepends = r.mayDepends)
      ∧ ((order.foldl
          (fun acc p => if acc.packagePattern p.name then acc.process graph p else acc)
          r).expectedStarToPackage = r.expectedStarToPackage) := by
  induction order with
  | nil => intro r; exact ⟨rfl, rfl, rfl, rfl⟩
  | cons p rest ih =>
    intro r
    by_cases hmatch : r.packagePattern p.name = true
    · rw [List.foldl_cons, if_pos hmatch]
      exact ih (r.process graph p)
    · rw [List.foldl_cons, if_neg hmatch]
      exact ih r

/-- Membership in `actualPackagesProcessed` after the orchestration fold:
the previously processed names plus the names of matched packages of the
iteration, independent of their order. -/
theorem runRule_foldl_processed (graph : List (String × pkg)) (order : List pkg) :
    ∀ r : rule, ∀ x : String,
      (memStr x ((order.foldl
            (fun acc p => if acc.packagePattern p.name then acc.process graph p else acc)
            r).actualPackagesProcessed) = true
        ↔ memStr x r.actualPackagesProcessed = true
          ∨ ∃ p ∈ order, r.packagePattern p.name = true ∧ p.name = x) := by
  induction order with
  | nil => intro r x; simp
  | cons p rest ih =>
    intro r x
    by_cases hmatch : r.packagePattern p.name = true
    · rw [List.foldl_cons, if_pos hmatch]
      rw [ih (r.process graph p) x]
      rw [process_actualPackagesProcessed]
      constructor
      · rintro (hm | ⟨q, hq, hqm, hqx⟩)
        · by_cases hpp : memStr p.name r.actualPackagesProcessed = true
          · rw [if_pos hpp] at hm
            exact Or.inl hm
          · rw [Bool.not_eq_true] at hpp
            rw [if_neg (by rw [hpp]; exact Bool.noConfusion)] at hm
            rw [memStr_iff, List.mem_append] at hm
            rcases hm with hm | hm
            · exact Or.inl ((memStr_iff _ _).2 hm)
            · simp only [List.mem_singleton] at hm
              exact Or.inr ⟨p, List.mem_cons_self p rest, hmatch, hm.symm⟩
        · rw [process_packagePattern] at hqm
          exact Or.inr ⟨q, List.mem_cons_of_mem p hq, hqm, hqx⟩
      · rintro (hm | ⟨q, hq, hqm, hqx⟩)
        · left
          split
          · exact hm
          · rw [memStr_iff, List.mem_append]
            exact Or.inl ((memStr_iff _ _).1 hm)
        · rcases List.mem_cons.1 hq with rfl | hq'
          · left
            subst hqx
            split
            · assumption
            · rw [memStr_iff, List.mem_append]
              exact Or.inr (List.mem_singleton.2 rfl)
          · exact Or.inr ⟨q, hq', (process_packagePattern r graph p).symm ▸ hqm, hqx⟩
    · rw [List.foldl_cons, if_neg hmatch]
      rw [ih r x]
      constructor
      · rintro (hm | ⟨q, hq, hqm, hqx⟩)
        · exact Or.inl hm
        · exact Or.inr ⟨q, List.mem_cons_of_mem p hq, hqm, hqx⟩
      · rintro (hm | ⟨q, hq, hqm, hqx⟩)
        · exact Or.inl hm
        · rcases List.mem_cons.1 hq with rfl | hq'
          · exact absurd hqm hmatch
          · exact Or.inr ⟨q, hq', hqm, hqx⟩

/-- C9: the violation multiset a rule accumulates over a full run (all
matching packages processed, then the completeness pass) is the same for
every iteration order of the graph's packages — permuting the order permutes
only the interleaving of the output. -/
theorem c9_order_independence (graph : List (String × pkg)) (r : rule)
    (l₁ l₂ : List pkg) (h : l₁.Perm l₂) :
    ((runRule graph r l₁).violations).Perm ((runRule graph r l₂).violations) := by
  have hv := fun l => runRule_foldl_violations graph l r r rfl rfl rfl rfl
  have hM : ∀ l : List pkg,
      (runRule graph r l).violations
        = (r.violations ++ l.flatMap
            (fun p => if r.packagePattern p.name then violationsFor r p else []))
          ++ ((r.expectedPackageToPackage.map Prod.fst).filter
              (fun e => !(memStr e ((l.foldl
                (fun acc p => if acc.packagePattern p.name then acc.process graph p else acc)
                r).actualPackagesProcessed)))).map
            (fun e => "- missing    " ++ e) := by
    intro l
    rw [runRule, processMissing_violations_eq, hv l,
      (runRule_foldl_fields graph l r).1]
  rw [hM l₁, hM l₂]
  have hMeq : ((r.expectedPackageToPackage.map Prod.fst).filter
        (fun e => !(memStr e ((l₁.foldl
          (fun acc p => if acc.packagePattern p.name then acc.process graph p else acc)
          r).actualPackagesProcessed))))
      = ((r.expectedPackageToPackage.map Prod.fst).filter
        (fun e => !(memStr e ((l₂.foldl
          (fun acc p => if acc.packagePattern p.name then acc.process graph p else acc)
          r).actualPackagesProcessed)))) := by
    apply List.filter_congr
    intro e _
    have hb : (memStr e ((l₁.foldl
          (fun acc p => if acc.packagePattern p.name then acc.process graph p else acc)
          r).actualPackagesProcessed))
        = (memStr e ((l₂.foldl
          (fun acc p => if acc.packagePattern p.name then acc.process graph p else acc)
          r).actualPackagesProcessed)) := by
      apply bool_eq_of_true_iff
      rw [runRule_foldl_processed graph l₁ r e, runRule_foldl_processed graph l₂ r e]
      constructor
      · rintro (hm | ⟨q, hq, hqc⟩)
        · exact Or.inl hm
        · exact Or.inr ⟨q, h.mem_iff.1 hq, hqc⟩
      · rintro (hm | ⟨q, hq, hqc⟩)
        · exact Or.inl hm
        · exact Or.inr ⟨q, h.mem_iff.2 hq, hqc⟩
    rw [hb]
  rw [← hMeq]
  exact ((List.Perm.refl r.violations).append
    (h.flatMap_right (fun p => if r.packagePattern p.name then violationsFor r p else []))).append
    (List.Perm.refl _)

/-- C9 witness: swapping a two-package iteration permutes the accumulated
violations. -/
theorem c9_order_independence_witness :
    ([(⟨"a", false, [⟨"z", false⟩]⟩ : pkg), ⟨"b", false, []⟩].Perm
      [(⟨"b", false, []⟩ : pkg), ⟨"a", false, [⟨"z", false⟩]⟩])
    ∧ ((runRule [] { packagePattern := fun _ => true }
          [⟨"a", false, [⟨"z", false⟩]⟩, ⟨"b", false, []⟩]).violations).Perm
        ((runRule [] { packagePattern := fun _ => true }
          [⟨"b", false, []⟩, ⟨"a", false, [⟨"z", false⟩]⟩]).violations) :=
  ⟨by decide,
    c9_order_independence [] { packagePattern := fun _ => true }
      [⟨"a", false, [⟨"z", false⟩]⟩, ⟨"b", false, []⟩]
      [⟨"b", false, []⟩, ⟨"a", false, [⟨"z", false⟩]⟩] (by decide)⟩

/-! ## Graph builder lemmas -/

theorem lookupPkg_cons (k : String) (v : gpkg) (m : PkgMap) (key : String) :
    lookupPkg ((k, v) :: m) key = if key = k then some v else lookupPkg m key := rfl

theorem lookup_addEdge (m : PkgMap) (k : String) (e : String × Option String)
    (key : String) :
    lookupPkg (addEdge m k e) key =
      if key = k then
        (lookupPkg m k).map (fun v => { v with dependsOn := v.dependsOn ++ [e] })
      else lookupPkg m key := by
  induction m with
  | nil => simp only [addEdge, lookupPkg]; split <;> rfl
  | cons hd tl ih =>
    obtain ⟨k', v⟩ := hd
    simp only [addEdge]
    by_cases h1 : k = k'
    · subst h1
      rw [if_pos rfl]
      by_cases h2 : key = k
      · subst h2
        simp [lookupPkg_cons]
      · simp [lookupPkg_cons, h2]
    · rw [if_neg h1]
      by_cases h2 : key = k'
      · subst h2
        have hkk : ¬(key = k) := fun hc => h1 hc.symm
        simp [lookupPkg_cons, hkk]
      · have hkk' : ¬(k = k') := h1
        simp [lookupPkg_cons, h2, hkk', ih]

theorem mem_getImportsAux (id x : String) :
    ∀ (keys found : List String), x ∈ getImportsAux id found keys → x ∈ keys := by
  intro keys
  induction keys with
  | nil => intro found h; simpa [getImportsAux] using h
  | cons k rest ih =>
    intro found h
    simp only [getImportsAux] at h
    split at h
    · exact List.mem_cons_of_mem k (ih found h)
    · split at h
      · exact List.mem_cons_of_mem k (ih found h)
      · rcases List.mem_cons.1 h with rfl | h'
        · exact List.mem_cons_self x rest
        · exact List.mem_cons_of_mem k (ih (k :: found) h')

theorem mem_getImports (id x : String) (keys : List String)
    (h : x ∈ getImports id keys) : x ∈ keys :=
  mem_getImportsAux id x keys [] h

/-- C2 counterexample: entering the builder at level 255 (one step below the
cap), the recursion into the single import is cut off by the depth cap, yet
the edge is still recorded — with a nil pointer — and its target is present
neither at recording time nor in the final mapping. -/
theorem c2_edge_target_counterexample :
    lookupPkg (_collectPackages ("p") "p0"
        (fun _ => { goroot := false, imports := ["p1"] }) [] "p0" 255) "p0"
      = some { name := "p0", goroot := false, dependsOn := [("p1", none)] }
    ∧ lookupPkg (_collectPackages ("p") "p0"
        (fun _ => { goroot := false, imports := ["p1"] }) [] "p0" 255) "p1"
      = none :=
  ⟨rfl, rfl⟩

/-- The import loop preserves every map entry other than the parent's,
provided the recursive step does so for entries present before a recursion
into an absent import. -/
theorem collectEdgesWith_lookup_preserve
    (step : PkgMap → String → PkgMap)
    (hstep : ∀ (m : PkgMap) (x : String), lookupPkg m x = none → x ≠ "." →
      ∀ (k : String) (node : gpkg), lookupPkg m k = some node →
        lookupPkg (step m x) k = some node) :
    ∀ (imps : List String) (pkgs : PkgMap) (parent : String), "." ∉ imps →
      ∀ (k : String) (node : gpkg), k ≠ parent → lookupPkg pkgs k = some node →
        lookupPkg (collectEdgesWith step pkgs parent imps) k = some node := by
  intro imps
  induction imps with
  | nil => intro pkgs parent _ k node _ hk; simpa [collectEdgesWith] using hk
  | cons imp rest ih =>
    intro pkgs parent hdot k node hkp hk
    simp only [collectEdgesWith]
    have hdot1 : imp ≠ "." := fun hc => hdot (hc ▸ List.mem_cons_self imp rest)
    have hdot2 : "." ∉ rest := fun hc => hdot (List.mem_cons_of_mem imp hc)
    apply ih _ parent hdot2 k node hkp
    rw [lookup_addEdge, if_neg hkp]
    by_cases hnone : (lookupPkg pkgs imp).isNone = true
    · rw [if_pos hnone]
      exact hstep pkgs imp (Option.isNone_iff_eq_none.1 hnone) hdot1 k node hk
    · rw [if_neg hnone]
      exact hk

/-- The builder preserves every entry that is present before a call on a
name that is absent from the map (the only way it is ever invoked
recursively). -/
theorem collectPackagesF_lookup_preserve (wp rootID : String)
    (info : String → goPackage) (hclean : ∀ n, "." ∉ (info n).imports) :
    ∀ (fuel : Nat) (pkgs : PkgMap) (x : String), lookupPkg pkgs x = none → x ≠ "." →
      ∀ (k : String) (node : gpkg), lookupPkg pkgs k = some node →
        lookupPkg (_collectPackagesF wp rootID info fuel pkgs x) k = some node := by
  intro fuel
  induction fuel with
  | zero => intro pkgs x _ _ k node hk; simpa [_collectPackagesF] using hk
  | succ fuel ih =>
    intro pkgs x hx hdotx k node hk
    have hkx : k ≠ x := fun hc => by rw [hc, hx] at hk; exact Option.noConfusion hk
    simp only [_collectPackagesF, if_neg hdotx]
    split
    · rw [lookupPkg_cons, if_neg hkx]
      exact hk
    · split
      · rw [lookupPkg_cons, if_neg hkx]
        exact hk
      · apply collectEdgesWith_lookup_preserve _ ih _ _ x
        · intro hc
          exact hclean x (mem_getImports x (".") (info x).imports hc)
        · exact hkx
        · rw [lookupPkg_cons, if_neg hkx]
          exact hk

/-- The import loop keeps the parent's entry present (its `dependsOn` may
grow). -/
theorem collectEdgesWith_parent_some
    (step : PkgMap → String → PkgMap)
    (hstep : ∀ (m : PkgMap) (x : String), lookupPkg m x = none → x ≠ "." →
      ∀ (k : String) (node : gpkg), lookupPkg m k = some node →
        lookupPkg (step m x) k = some node) :
    ∀ (imps : List String) (pkgs : PkgMap) (parent : String), "." ∉ imps →
      ∀ pnode : gpkg, lookupPkg pkgs parent = some pnode →
        ∃ pnode' : gpkg,
          lookupPkg (collectEdgesWith step pkgs parent imps) parent = some pnode' := by
  intro imps
  induction imps with
  | nil => intro pkgs parent _ pnode hp; exact ⟨pnode, by simpa [collectEdgesWith] using hp⟩
  | cons imp rest ih =>
    intro pkgs parent hdot pnode hp
    simp only [collectEdgesWith]
    have hdot1 : imp ≠ "." := fun hc => hdot (hc ▸ List.mem_cons_self imp rest)
    have hdot2 : "." ∉ rest := fun hc => hdot (List.mem_cons_of_mem imp hc)
    have hp1 : ∃ pnode₁ : gpkg,
        lookupPkg (if (lookupPkg pkgs imp).isNone then step pkgs imp else pkgs) parent
          = some pnode₁ := by
      by_cases hnone : (lookupPkg pkgs imp).isNone = true
      · rw [if_pos hnone]
        exact ⟨pnode, hstep pkgs imp (Option.isNone_iff_eq_none.1 hnone) hdot1
          parent pnode hp⟩
      · rw [if_neg hnone]
        exact ⟨pnode, hp⟩
    obtain ⟨pnode₁, hp1⟩ := hp1
    apply ih _ parent hdot2 ({ pnode₁ with dependsOn := pnode₁.dependsOn ++ [_] })
    rw [lookup_addEdge, if_pos rfl, hp1]
    rfl

/-- After a builder call with positive remaining depth budget on a
non-`"."` name, that name is interned in the resulting map. -/
theorem collectPackagesF_lookup_self (wp rootID : String)
    (info : String → goPackage) (hclean : ∀ n, "." ∉ (info n).imports)
    (fuel : Nat) (pkgs : PkgMap) (x : String) (hfuel : 1 ≤ fuel) (hdotx : x ≠ ".") :
    ∃ node : gpkg,
      lookupPkg (_collectPackagesF wp rootID info fuel pkgs x) x = some node := by
  obtain ⟨fuel, rfl⟩ : ∃ f, fuel = f + 1 := ⟨fuel - 1, (Nat.succ_pred_eq_of_pos hfuel).symm⟩
  simp only [_collectPackagesF, if_neg hdotx]
  split
  · exact ⟨_, by rw [lookupPkg_cons, if_pos rfl]⟩
  · split
    · exact ⟨_, by rw [lookupPkg_cons, if_pos rfl]⟩
    · apply collectEdgesWith_parent_some _
        (collectPackagesF_lookup_preserve wp rootID info hclean fuel) _ _ x
      · intro hc
        exact hclean x (mem_getImports x (".") (info x).imports hc)
      · rw [lookupPkg_cons, if_pos rfl]

/-- `addEdge` keeps every stored node named after its key. -/
theorem addEdge_nameKey (m : PkgMap) (key : String) (e : String × Option String)
    (hinv : ∀ (k : String) (node : gpkg), lookupPkg m k = some node → node.name = k) :
    ∀ (k : String) (node : gpkg), lookupPkg (addEdge m key e) k = some node →
      node.name = k := by
  intro k node h
  by_cases hk : k = key
  · subst hk
    rw [lookup_addEdge, if_pos rfl] at h
    obtain ⟨v, hv, rfl⟩ := Option.map_eq_some'.1 h
    exact hinv k v hv
  · rw [lookup_addEdge, if_neg hk] at h
    exact hinv k node h

/-- The import loop keeps every stored node named after its key. -/
theorem collectEdgesWith_nameKey
    (step : PkgMap → String → PkgMap)
    (hstep : ∀ (m : PkgMap) (x : String),
      (∀ (k : String) (node : gpkg), lookupPkg m k = some node → node.name = k) →
      ∀ (k : String) (node : gpkg), lookupPkg (step m x) k = some node → node.name = k) :
    ∀ (imps : List String) (pkgs : PkgMap) (parent : String),
      (∀ (k : String) (node : gpkg), lookupPkg pkgs k = some node → node.name = k) →
      ∀ (k : String) (node : gpkg),
        lookupPkg (collectEdgesWith step pkgs parent imps) k = some node →
          node.name = k := by
  intro imps
  induction imps with
  | nil => intro pkgs parent hinv k node h; exact hinv k node (by simpa [collectEdgesWith] using h)
  | cons imp rest ih =>
    intro pkgs parent hinv k node h
    simp only [collectEdgesWith] at h
    apply ih _ parent _ k node h
    apply addEdge_nameKey
    by_cases hnone : (lookupPkg pkgs imp).isNone = true
    · rw [if_pos hnone]
      exact hstep pkgs imp hinv
    · rw [if_neg hnone]
      exact hinv

/-- The builder keeps every stored node named after its key. -/
theorem collectPackagesF_nameKey (wp rootID : String) (info : String → goPackage) :
    ∀ (fuel : Nat) (pkgs : PkgMap) (x : String),
      (∀ (k : String) (node : gpkg), lookupPkg pkgs k = some node → node.name = k) →
      ∀ (k : String) (node : gpkg),
        lookupPkg (_collectPackagesF wp rootID info fuel pkgs x) k = some node →
          node.name = k := by
  intro fuel
  induction fuel with
  | zero => intro pkgs x hinv k node h; exact hinv k node (by simpa [_collectPackagesF] using h)
  | succ fuel ih =>
    intro pkgs x hinv k node h
    simp only [_collectPackagesF] at h
    set resolved : String := if x = "." then rootID else x with hres
    have hcons : ∀ (k' : String) (node' : gpkg),
        lookupPkg ((resolved,
          ({ name := resolved, goroot := (info resolved).goroot,
             dependsOn := [] } : gpkg)) :: pkgs) k' = some node' → node'.name = k' := by
      intro k' node' hk
      rw [lookupPkg_cons] at hk
      by_cases hkr : k' = resolved
      · rw [if_pos hkr] at hk
        rw [← Option.some.inj hk, hkr]
      · rw [if_neg hkr] at hk
        exact hinv k' node' hk
    split at h
    · exact hcons k node h
    · split at h
      · exact hcons k node h
      · exact collectEdgesWith_nameKey _ ih _ _ _ hcons k node h

/-- C2 amended: whenever the import loop runs with positive remaining depth
budget (the recursion into each import is not cut off by the depth cap), the
builder recurses into each unvisited import first, so each edge it records
carries a pointer to the node interned under the import's name, which is
present in the mapping at the moment the edge is recorded; at a branch cut
off by the cap the recorded pointer is nil (`c2_edge_target_counterexample`).
The hypothesis on `info` says no unit lists `"."` among its imports, since
Go import paths never do. -/
theorem c2_edge_targets_exist (wp rootID : String) (info : String → goPackage)
    (hclean : ∀ n, "." ∉ (info n).imports)
    (fuel : Nat) (hfuel : 1 ≤ fuel)
    (imps : List String) (hdot : "." ∉ imps)
    (pkgs : PkgMap)
    (hinv : ∀ (k : String) (node : gpkg), lookupPkg pkgs k = some node → node.name = k)
    (parent : String) (pnode : gpkg) (hparent : lookupPkg pkgs parent = some pnode) :
    ∃ (pnode' : gpkg) (newEdges : List (String × Option String)),
      lookupPkg (collectEdgesWith (_collectPackagesF wp rootID info fuel) pkgs parent imps)
          parent = some pnode'
      ∧ pnode'.dependsOn = pnode.dependsOn ++ newEdges
      ∧ ∀ e ∈ newEdges, e.2 = some e.1 := by
  induction imps generalizing pkgs pnode with
  | nil =>
    exact ⟨pnode, [], by simpa [collectEdgesWith] using hparent, by simp, by simp⟩
  | cons imp rest ih =>
    have hdot1 : imp ≠ "." := fun hc => hdot (hc ▸ List.mem_cons_self imp rest)
    have hdot2 : "." ∉ rest := fun hc => hdot (List.mem_cons_of_mem imp hc)
    simp only [collectEdgesWith]
    have hm₁ : ∃ dnode : gpkg,
        lookupPkg (if (lookupPkg pkgs imp).isNone then
          _collectPackagesF wp rootID info fuel pkgs imp else pkgs) imp = some dnode := by
      by_cases hnone : (lookupPkg pkgs imp).isNone = true
      · rw [if_pos hnone]
        exact collectPackagesF_lookup_self wp rootID info hclean fuel pkgs imp hfuel hdot1
      · rw [if_neg hnone]
        cases hlk : lookupPkg pkgs imp with
        | none => exact absurd (by rw [hlk]; rfl) hnone
        | some d => exact ⟨d, rfl⟩
    obtain ⟨dnode, hdnode⟩ := hm₁
    have hm₁parent : lookupPkg (if (lookupPkg pkgs imp).isNone then
        _collectPackagesF wp rootID info fuel pkgs imp else pkgs) parent = some pnode := by
      by_cases hnone : (lookupPkg pkgs imp).isNone = true
      · rw [if_pos hnone]
        exact collectPackagesF_lookup_preserve wp rootID info hclean fuel pkgs imp
          (Option.isNone_iff_eq_none.1 hnone) hdot1 parent pnode hparent
      · rw [if_neg hnone]
        exact hparent
    have hm₁inv : ∀ (k : String) (node : gpkg),
        lookupPkg (if (lookupPkg pkgs imp).isNone then
          _collectPackagesF wp rootID info fuel pkgs imp else pkgs) k = some node →
          node.name = k := by
      by_cases hnone : (lookupPkg pkgs imp).isNone = true
      · rw [if_pos hnone]
        exact collectPackagesF_nameKey wp rootID info fuel pkgs imp hinv
      · rw [if_neg hnone]
        exact hinv
    have hdname : dnode.name = imp := hm₁inv imp dnode hdnode
    have hedge : (imp, (lookupPkg (if (lookupPkg pkgs imp).isNone then
        _collectPackagesF wp rootID info fuel pkgs imp else pkgs) imp).map gpkg.name)
        = (imp, some imp) := by
      rw [hdnode, Option.map_some', hdname]
    rw [hedge]
    have hm₂parent : lookupPkg (addEdge (if (lookupPkg pkgs imp).isNone then
        _collectPackagesF wp rootID info fuel pkgs imp else pkgs) parent (imp, some imp))
        parent = some { pnode with dependsOn := pnode.dependsOn ++ [(imp, some imp)] } := by
      rw [lookup_addEdge, if_pos rfl, hm₁parent, Option.map_some']
    have hm₂inv : ∀ (k : String) (node : gpkg),
        lookupPkg (addEdge (if (lookupPkg pkgs imp).isNone then
          _collectPackagesF wp rootID info fuel pkgs imp else pkgs) parent (imp, some imp))
          k = some node → node.name = k :=
      addEdge_nameKey _ parent (imp, some imp) hm₁inv
    obtain ⟨pnode', newEdges, h1, h2, h3⟩ := ih hdot2 _ hm₂inv _ hm₂parent
    refine ⟨pnode', (imp, some imp) :: newEdges, h1, ?_, ?_⟩
    · rw [h2]
      simp
    · intro e he
      rcases List.mem_cons.1 he with rfl | he'
      · rfl
      · exact h3 e he'

/-- C2 amended witness: with one unit of depth budget left, recording the
edge to the fresh import `q` interns `q` first and records a non-nil
pointer. -/
theorem c2_edge_targets_exist_witness :
    ∃ (pnode' : gpkg) (newEdges : List (String × Option String)),
      lookupPkg (collectEdgesWith
          (_collectPackagesF ("p") "p" (fun _ => { goroot := false, imports := [] }) 1)
          [("p", { name := "p", goroot := false, dependsOn := [] })] "p" ["q"]) "p"
        = some pnode'
      ∧ pnode'.dependsOn
        = ({ name := "p", goroot := false, dependsOn := [] } : gpkg).dependsOn ++ newEdges
      ∧ ∀ e ∈ newEdges, e.2 = some e.1 :=
  c2_edge_targets_exist ("p") "p" (fun _ => { goroot := false, imports := [] })
    (fun _ => List.not_mem_nil (".")) 1 (by decide) ["q"] (by decide)
    [("p", { name := "p", goroot := false, dependsOn := [] })]
    (by
      intro k node h
      rw [lookupPkg_cons] at h
      by_cases hk : k = "p"
      · rw [if_pos hk] at h
        rw [← Option.some.inj h, hk]
      · rw [if_neg hk] at h
        exact absurd h (by simp [lookupPkg]))
    "p" { name := "p", goroot := false, dependsOn := [] } rfl

/-- `addEdge` on a parent that is internal to the working package and not
standard-library preserves the C6 invariant. -/
theorem addEdge_leafInv (wp : String) (info : String → goPackage) (m : PkgMap)
    (parent : String) (e : String × Option String)
    (hg : (info parent).goroot = false) (hs : strStarts parent wp = true)
    (hinv : leafInv wp info m) : leafInv wp info (addEdge m parent e) := by
  intro k node h
  by_cases hk : k = parent
  · subst hk
    rw [lookup_addEdge, if_pos rfl] at h
    obtain ⟨v, hv, rfl⟩ := Option.map_eq_some'.1 h
    obtain ⟨hn, hgr, _⟩ := hinv k v hv
    refine ⟨hn, hgr, ?_⟩
    rintro (hcase | hcase)
    · rw [show ({ v with dependsOn := v.dependsOn ++ [e] } : gpkg).goroot = v.goroot from rfl,
        hgr, hg] at hcase
      exact Bool.noConfusion hcase
    · rw [show ({ v with dependsOn := v.dependsOn ++ [e] } : gpkg).name = v.name from rfl,
        hn] at hcase
      rw [hcase] at hs
      exact Bool.noConfusion hs
  · rw [lookup_addEdge, if_neg hk] at h
    exact hinv k node h

/-- The import loop preserves the C6 invariant when its parent is internal
to the working package and not standard-library. -/
theorem collectEdgesWith_leafInv (wp : String) (info : String → goPackage)
    (step : PkgMap → String → PkgMap)
    (hstep : ∀ (m : PkgMap) (x : String), leafInv wp info m → leafInv wp info (step m x))
    (parent : String) (hg : (info parent).goroot = false)
    (hs : strStarts parent wp = true) :
    ∀ (imps : List String) (pkgs : PkgMap), leafInv wp info pkgs →
      leafInv wp info (collectEdgesWith step pkgs parent imps) := by
  intro imps
  induction imps with
  | nil => intro pkgs hinv; simpa [collectEdgesWith] using hinv
  | cons imp rest ih =>
    intro pkgs hinv
    simp only [collectEdgesWith]
    apply ih
    apply addEdge_leafInv wp info _ parent _ hg hs
    by_cases hnone : (lookupPkg pkgs imp).isNone = true
    · rw [if_pos hnone]
      exact hstep pkgs imp hinv
    · rw [if_neg hnone]
      exact hinv

/-- The builder preserves the C6 invariant. -/
theorem collectPackagesF_leafInv (wp rootID : String) (info : String → goPackage) :
    ∀ (fuel : Nat) (pkgs : PkgMap) (x : String), leafInv wp info pkgs →
      leafInv wp info (_collectPackagesF wp rootID info fuel pkgs x) := by
  intro fuel
  induction fuel with
  | zero => intro pkgs x hinv; simpa [_collectPackagesF] using hinv
  | succ fuel ih =>
    intro pkgs x hinv k node h
    simp only [_collectPackagesF] at h
    set resolved : String := if x = "." then rootID else x with hres
    have hconsInv : leafInv wp info ((resolved,
        ({ name := resolved, goroot := (info resolved).goroot,
           dependsOn := [] } : gpkg)) :: pkgs) := by
      intro k' node' hk
      rw [lookupPkg_cons] at hk
      by_cases hkr : k' = resolved
      · rw [if_pos hkr] at hk
        rw [← Option.some.inj hk]
        exact ⟨hkr.symm, by rw [hkr], fun _ => rfl⟩
      · rw [if_neg hkr] at hk
        exact hinv k' node' hk
    split at h
    · exact hconsInv k node h
    · next hgor =>
      split at h
      · exact hconsInv k node h
      · next hpre =>
        have hg : (info resolved).goroot = false := by
          cases hb : (info resolved).goroot
          · rfl
          · exact absurd hb hgor
        have hs : strStarts resolved wp = true := by
          cases hb : strStarts resolved wp
          · exact absurd (by rw [hb]; rfl) hpre
          · rfl
        exact collectEdgesWith_leafInv wp info _ ih resolved hg hs _ _ hconsInv k node h

/-- C6: in every graph the builder produces, a standard-library node, and a
node whose name does not start with the working prefix, has an empty
`dependsOn` — such nodes are recorded as leaves and their imports are never
traversed. -/
theorem c6_leaf_nodes (wp rootID : String) (info : String → goPackage)
    (k : String) (node : gpkg)
    (h : lookupPkg (collectPackages wp rootID info) k = some node)
    (hleaf : node.goroot = true ∨ strStarts node.name wp = false) :
    node.dependsOn = [] := by
  have h0 : leafInv wp info [] := by
    intro k' node' h'
    exact absurd h' (by simp [lookupPkg])
  exact ((collectPackagesF_leafInv wp rootID info (256 - 0) [] "." h0) k node h).2.2 hleaf

/-- C6 witness: a root outside the working prefix is interned as a leaf. -/
theorem c6_leaf_nodes_witness :
    ∃ node : gpkg,
      lookupPkg (collectPackages ("w") "r" (fun _ => { goroot := false, imports := ["x"] })) "r"
        = some node
      ∧ node.dependsOn = [] :=
  ⟨{ name := "r", goroot := false, dependsOn := [] }, rfl,
    c6_leaf_nodes ("w") "r" (fun _ => { goroot := false, imports := ["x"] }) "r"
      { name := "r", goroot := false, dependsOn := [] } rfl (Or.inr rfl)⟩
